import Mathlib

/-!
Laplace filter kernel (`src/JAcpp/fun.cpp`).

A shallow embedding of `ApplyLaplaceFilter` and theorems about it.

Modelling conventions.

* A `uint8_t` sample is a `Byte` (`Fin 256`); it is promoted to `Int` before any
  arithmetic, as C++ integer promotion does.
* A `uint8_t*` argument is a `Buffer`: the bytes of the allocation the pointer
  points into, together with the position of the pointer inside that allocation.
  Index `k` of the pointer is cell `origin + k` of the allocation, so negative
  indices are meaningful when the caller reserved a margin in front of the
  pointer.  An access outside the allocation is undefined behaviour in C++ and
  is a `Fault` here.
* `int` values are `Int`s.  The arithmetic on `result` is wrapped to 32 bits at
  every step (`wrapInt32`); index arithmetic (`width * 3`, `i + 3`,
  `i ± extendedWidth`) is exact, i.e. the development covers calls whose indices
  fit in an `int`.
* `%` on `int` is the truncated remainder (`Int.tmod`), and a zero divisor is a
  `Fault`.
-/

namespace LaplaceFilter

/-- An unsigned 8-bit sample (`uint8_t`). -/
abbrev Byte := Fin 256

/-- The ways in which an execution of the kernel can leave defined behaviour. -/
inductive Fault where
  | divideByZero
  | readOutOfBounds
  | writeOutOfBounds
deriving DecidableEq

deriving instance DecidableEq for Except

/-- A `uint8_t*`: the allocation it points into and the offset of the pointer in it. -/
structure Buffer where
  cells : List Byte
  origin : Nat
deriving DecidableEq

namespace Buffer

/-- Index `k` (relative to the pointer) falls inside the allocation. -/
def inside (b : Buffer) (k : Int) : Prop :=
  0 ≤ (b.origin : Int) + k ∧ (b.origin : Int) + k < (b.cells.length : Int)

instance (b : Buffer) (k : Int) : Decidable (b.inside k) := by
  unfold inside; infer_instance

/-- The sample stored at index `k`, when there is one. -/
def get? (b : Buffer) (k : Int) : Option Byte :=
  if 0 ≤ (b.origin : Int) + k then b.cells.get? ((b.origin : Int) + k).toNat else none

/-- The expression `p[k]` used as an rvalue. -/
def read (b : Buffer) (k : Int) : Except Fault Byte :=
  match b.get? k with
  | some v => .ok v
  | none => .error .readOutOfBounds

/-- The assignment `p[k] = v`. -/
def write (b : Buffer) (k : Int) (v : Byte) : Except Fault Buffer :=
  if b.inside k then
    .ok { b with cells := b.cells.set ((b.origin : Int) + k).toNat v }
  else
    .error .writeOutOfBounds

end Buffer

/-- Reduction of an integer to the range of a 32-bit signed `int`. -/
def wrapInt32 (x : Int) : Int := (x + 2147483648) % 4294967296 - 2147483648

/-- The conversion `static_cast<uint8_t>(x)`: reduction modulo 256. -/
def toUInt8 (x : Int) : Byte := ⟨(x % 256).toNat, by omega⟩

/-- The C++ expression `a % b` on `int`: truncated remainder, undefined for `b = 0`. -/
def cRem (a b : Int) : Except Fault Int :=
  if b = 0 then .error .divideByZero else .ok (Int.tmod a b)

/-- Line 23: `int extendedWidth = width * 3;`. -/
def extendedWidth (width : Int) : Int := width * 3

/-- Line 27: `i % extendedWidth <= 2 || (i + 3) % extendedWidth <= 2`, with the
short-circuit evaluation of `||`. -/
def skipTest (ew i : Int) : Except Fault Bool :=
  (cRem i ew).bind fun r1 =>
    if r1 ≤ 2 then .ok true
    else (cRem (i + 3) ew).bind fun r2 => .ok (decide (r2 ≤ 2))

/-- Lines 32-38: `result = 4 * input[i]` followed by the four subtractions, each
evaluated in 32-bit signed arithmetic, in source order. -/
def stencil (input : Buffer) (ew i : Int) : Except Fault Int :=
  (input.read i).bind fun c =>
  (input.read (i - 3)).bind fun l =>
  (input.read (i + 3)).bind fun r =>
  (input.read (i - ew)).bind fun t =>
  (input.read (i + ew)).bind fun b =>
    .ok (wrapInt32 (wrapInt32 (wrapInt32 (wrapInt32 (wrapInt32 (4 * (c.val : Int))
      - (l.val : Int)) - (r.val : Int)) - (t.val : Int)) - (b.val : Int)))

/-- Lines 41-42: the two clamping statements, in source order. -/
def clampSteps (result : Int) : Int :=
  let result := if result < 0 then 0 else result
  if result > 255 then 255 else result

/-- Lines 26-45: one execution of the loop body at index `i`. -/
def loopBody (input : Buffer) (ew : Int) (output : Buffer) (i : Int) : Except Fault Buffer :=
  (skipTest ew i).bind fun skip =>
    if skip then .ok output
    else (stencil input ew i).bind fun result =>
      output.write i (toUInt8 (clampSteps result))

/-- Line 25: the loop `for (...; i < end; ++i)` with `n` iterations still to run,
the next one at index `i`. -/
def forLoop (input : Buffer) (ew : Int) : Nat → Int → Buffer → Except Fault Buffer
  | 0, _, output => .ok output
  | n + 1, i, output => (loopBody input ew output i).bind fun output => forLoop input ew n (i + 1) output

/-- Lines 22-47: `ApplyLaplaceFilter(input, output, width, end)`.  The loop starts at
`i = 0` and runs while `i < end`, that is `end` times, and not at all for `end ≤ 0`. -/
def ApplyLaplaceFilter (input output : Buffer) (width end_ : Int) : Except Fault Buffer :=
  forLoop input (extendedWidth width) end_.toNat 0 output

/-- The loop body executed once for each index of `order`, in that order. -/
def runInOrder (input : Buffer) (ew : Int) : List Int → Buffer → Except Fault Buffer
  | [], output => .ok output
  | i :: rest, output => (loopBody input ew output i).bind fun output => runInOrder input ew rest output

/-- The mathematical clamp to `[lo, hi]`. -/
def clamp (x lo hi : Int) : Int := max lo (min x hi)

/-- The skip condition as the specification words it, with the mathematical `mod`. -/
def skipped (stride i : Int) : Prop := i % stride ≤ 2 ∨ (i + 3) % stride ≤ 2

instance (stride i : Int) : Decidable (skipped stride i) := by
  unfold skipped; infer_instance

/-- The value of the sample at index `k`, as an integer; `0` outside the allocation. -/
def sample (b : Buffer) (k : Int) : Int :=
  match b.get? k with
  | some v => (v.val : Int)
  | none => 0

/-- Lines 26-45 without the store: the byte the loop body stores at index `i`, or
`none` when the index is skipped. -/
def storedValue (input : Buffer) (ew i : Int) : Except Fault (Option Byte) :=
  (skipTest ew i).bind fun skip =>
    if skip then .ok none
    else (stencil input ew i).bind fun result => .ok (some (toUInt8 (clampSteps result)))

/-- The indices `0, 1, ..., end - 1` in ascending order (none for `end ≤ 0`). -/
def indices (end_ : Int) : List Int := (List.range end_.toNat).map Int.ofNat

/-- The five indices read by the loop body at `i`, in source order. -/
def stencilIndices (ew i : Int) : List Int := [i, i - 3, i + 3, i - ew, i + ew]

/-- The raw stencil value over the mathematical integers. -/
def laplace (input : Buffer) (stride i : Int) : Int :=
  4 * sample input i - sample input (i - 3) - sample input (i + 3)
    - sample input (i - stride) - sample input (i + stride)

/-- The loop body at index `i` runs without a fault on an output of this shape: the
skip test and the reads are defined and, when a byte is stored, index `i` is inside
the output. -/
def bodyDefined (input : Buffer) (ew : Int) (output : Buffer) (i : Int) : Prop :=
  ∃ a, storedValue input ew i = .ok a ∧ (a.isSome → output.inside i)

/-- The allocation holding `n` copies of `v`, with the pointer `origin` cells in. -/
def uniform (v : Byte) (n origin : Nat) : Buffer := ⟨List.replicate n v, origin⟩

/-- A sample input: one row of three pixels (`width = 3`, stride 9, indices `0..8`)
with a spare row in front of the pointer and one behind the row. -/
def rowInput : Buffer :=
  ⟨[10, 20, 30, 40, 50, 60, 70, 80, 90,
    5, 15, 25, 35, 200, 45, 55, 65, 75,
    1, 2, 3, 4, 5, 6, 7, 8, 9], 9⟩

/-- A sample output buffer of nine bytes, all `7`. -/
def rowOutput : Buffer := ⟨[7, 7, 7, 7, 7, 7, 7, 7, 7], 0⟩

theorem Buffer.get?_isSome_iff (b : Buffer) (k : Int) : (b.get? k).isSome ↔ b.inside k := by
  unfold Buffer.get? Buffer.inside
  by_cases h : 0 ≤ (b.origin : Int) + k
  · simp only [h, if_true, true_and, List.get?_eq_getElem?]
    rw [Option.isSome_iff_exists]
    constructor
    · rintro ⟨v, hv⟩
      have := (List.getElem?_eq_some_iff.1 hv).1
      omega
    · intro hlt
      have hlt2 : ((b.origin : Int) + k).toNat < b.cells.length := by omega
      exact ⟨_, List.getElem?_eq_getElem hlt2⟩
  · simp [h]

theorem Buffer.get?_eq_none_iff (b : Buffer) (k : Int) : b.get? k = none ↔ ¬ b.inside k := by
  rw [← Buffer.get?_isSome_iff]
  cases b.get? k <;> simp

theorem Buffer.read_ok_iff (b : Buffer) (k : Int) : (∃ v, b.read k = .ok v) ↔ b.inside k := by
  rw [← Buffer.get?_isSome_iff]
  unfold Buffer.read
  cases b.get? k <;> simp

theorem Buffer.read_eq_ok (b : Buffer) (k : Int) (v : Byte) :
    b.read k = .ok v ↔ b.get? k = some v := by
  unfold Buffer.read
  cases b.get? k <;> simp

theorem Buffer.read_of_not_inside (b : Buffer) (k : Int) (h : ¬ b.inside k) :
    b.read k = .error .readOutOfBounds := by
  have := (Buffer.get?_eq_none_iff b k).2 h
  simp [Buffer.read, this]

theorem Buffer.write_ok_iff (b : Buffer) (k : Int) (v : Byte) :
    (∃ b', b.write k v = .ok b') ↔ b.inside k := by
  unfold Buffer.write
  by_cases h : b.inside k <;> simp [h]

theorem Buffer.write_of_not_inside (b : Buffer) (k : Int) (v : Byte) (h : ¬ b.inside k) :
    b.write k v = .error .writeOutOfBounds := by
  simp [Buffer.write, h]

theorem Buffer.write_shape {b b' : Buffer} {k : Int} {v : Byte} (h : b.write k v = .ok b') :
    b'.origin = b.origin ∧ b'.cells.length = b.cells.length := by
  unfold Buffer.write at h
  by_cases hin : b.inside k
  · simp only [hin, if_true, Except.ok.injEq] at h
    subst h
    simp
  · simp [hin] at h

theorem Buffer.write_get?_same {b b' : Buffer} {k : Int} {v : Byte} (h : b.write k v = .ok b') :
    b'.get? k = some v := by
  unfold Buffer.write at h
  by_cases hin : b.inside k
  · simp only [hin, if_true, Except.ok.injEq] at h
    subst h
    have h0 : 0 ≤ (b.origin : Int) + k := hin.1
    have h1 : ((b.origin : Int) + k).toNat < b.cells.length := by have := hin.2; omega
    simp [Buffer.get?, h0, h1]
  · simp [hin] at h

theorem Buffer.write_get?_other {b b' : Buffer} {k j : Int} {v : Byte}
    (h : b.write k v = .ok b') (hne : j ≠ k) : b'.get? j = b.get? j := by
  unfold Buffer.write at h
  by_cases hin : b.inside k
  · simp only [hin, if_true, Except.ok.injEq] at h
    subst h
    have h0 : 0 ≤ (b.origin : Int) + k := hin.1
    unfold Buffer.get?
    by_cases hj : 0 ≤ (b.origin : Int) + j
    · have hne2 : ((b.origin : Int) + k).toNat ≠ ((b.origin : Int) + j).toNat := by omega
      simp [hj, List.getElem?_set, hne2]
    · simp [hj]
  · simp [hin] at h

/-- Two pointers into allocations of the same shape with the same content everywhere
are the same buffer. -/
theorem Buffer.ext_get? {a b : Buffer} (ho : a.origin = b.origin)
    (hg : ∀ k : Int, a.get? k = b.get? k) : a = b := by
  cases a with
  | mk ca oa =>
    cases b with
    | mk cb ob =>
      simp only at ho
      subst ho
      congr 1
      apply List.ext_get?
      intro n
      have := hg ((n : Int) - (oa : Int))
      simpa [Buffer.get?] using this

/-! The skip test and the stencil -/

theorem skipTest_eq (ew i : Int) (hew : 0 < ew) (hi : 0 ≤ i) :
    skipTest ew i = .ok (decide (skipped ew i)) := by
  have h1 : Int.tmod i ew = i % ew := Int.tmod_eq_emod hi (le_of_lt hew)
  have h2 : Int.tmod (i + 3) ew = (i + 3) % ew := Int.tmod_eq_emod (by omega) (le_of_lt hew)
  have hne : ew ≠ 0 := by omega
  unfold skipTest cRem skipped
  simp only [hne, if_false, Except.bind, h1, h2]
  by_cases ha : i % ew ≤ 2
  · simp [ha]
  · simp [ha]

theorem wrapInt32_of_small (x : Int) (h1 : -2147483648 ≤ x) (h2 : x < 2147483648) :
    wrapInt32 x = x := by
  unfold wrapInt32
  omega

/-- On bytes, the five 32-bit operations of the stencil never wrap. -/
theorem wrapped_stencil (c l r t b : Byte) :
    wrapInt32 (wrapInt32 (wrapInt32 (wrapInt32 (wrapInt32 (4 * (c.val : Int))
      - (l.val : Int)) - (r.val : Int)) - (t.val : Int)) - (b.val : Int))
    = 4 * (c.val : Int) - (l.val : Int) - (r.val : Int) - (t.val : Int) - (b.val : Int) := by
  have bc := c.isLt
  have bl := l.isLt
  have br := r.isLt
  have bt := t.isLt
  have bb := b.isLt
  rw [wrapInt32_of_small (4 * (c.val : Int)) (by omega) (by omega)]
  rw [wrapInt32_of_small (4 * (c.val : Int) - (l.val : Int)) (by omega) (by omega)]
  rw [wrapInt32_of_small (4 * (c.val : Int) - (l.val : Int) - (r.val : Int)) (by omega) (by omega)]
  rw [wrapInt32_of_small (4 * (c.val : Int) - (l.val : Int) - (r.val : Int) - (t.val : Int))
    (by omega) (by omega)]
  rw [wrapInt32_of_small _ (by omega) (by omega)]

theorem stencil_eq_laplace (input : Buffer) (ew i : Int)
    (hin : ∀ k ∈ stencilIndices ew i, input.inside k) :
    stencil input ew i = .ok (laplace input ew i) := by
  simp only [stencilIndices, List.mem_cons, List.mem_singleton, List.not_mem_nil, or_false,
    forall_eq_or_imp, forall_eq] at hin
  obtain ⟨hc, hl, hr, ht, hb⟩ := hin
  obtain ⟨c, hc⟩ := (Buffer.read_ok_iff input _).2 hc
  obtain ⟨l, hl⟩ := (Buffer.read_ok_iff input _).2 hl
  obtain ⟨r, hr⟩ := (Buffer.read_ok_iff input _).2 hr
  obtain ⟨t, ht⟩ := (Buffer.read_ok_iff input _).2 ht
  obtain ⟨b, hb⟩ := (Buffer.read_ok_iff input _).2 hb
  have gc := (Buffer.read_eq_ok _ _ _).1 hc
  have gl := (Buffer.read_eq_ok _ _ _).1 hl
  have gr := (Buffer.read_eq_ok _ _ _).1 hr
  have gt := (Buffer.read_eq_ok _ _ _).1 ht
  have gb := (Buffer.read_eq_ok _ _ _).1 hb
  simp only [stencil, hc, hl, hr, ht, hb, Except.bind, laplace, sample, gc, gl, gr, gt, gb]
  rw [wrapped_stencil c l r t b]

theorem stencil_ok_inside (input : Buffer) (ew i : Int) (r : Int)
    (h : stencil input ew i = .ok r) : ∀ k ∈ stencilIndices ew i, input.inside k := by
  have key : ∀ k, ¬ input.inside k → input.read k = .error .readOutOfBounds :=
    fun k hk => Buffer.read_of_not_inside input k hk
  simp only [stencilIndices, List.mem_cons, List.mem_singleton, List.not_mem_nil, or_false,
    forall_eq_or_imp, forall_eq]
  unfold stencil at h
  by_cases hc : input.inside i
  swap
  · simp [key _ hc, Except.bind] at h
  obtain ⟨c, hc2⟩ := (Buffer.read_ok_iff input _).2 hc
  by_cases hl : input.inside (i - 3)
  swap
  · simp [key _ hl, hc2, Except.bind] at h
  obtain ⟨l, hl2⟩ := (Buffer.read_ok_iff input _).2 hl
  by_cases hr : input.inside (i + 3)
  swap
  · simp [key _ hr, hc2, hl2, Except.bind] at h
  obtain ⟨r, hr2⟩ := (Buffer.read_ok_iff input _).2 hr
  by_cases ht : input.inside (i - ew)
  swap
  · simp [key _ ht, hc2, hl2, hr2, Except.bind] at h
  obtain ⟨t, ht2⟩ := (Buffer.read_ok_iff input _).2 ht
  by_cases hb : input.inside (i + ew)
  swap
  · simp [key _ hb, hc2, hl2, hr2, ht2, Except.bind] at h
  exact ⟨hc, hl, hr, ht, hb⟩

theorem stencil_fault (input : Buffer) (ew i : Int)
    (h : ∃ k ∈ stencilIndices ew i, ¬ input.inside k) :
    stencil input ew i = .error .readOutOfBounds := by
  obtain ⟨k, hk, hnot⟩ := h
  cases hs : stencil input ew i with
  | ok r => exact absurd (stencil_ok_inside input ew i r hs k hk) hnot
  | error f =>
    have hf : f = .readOutOfBounds := by
      unfold stencil Buffer.read at hs
      revert hs
      cases input.get? i <;> cases input.get? (i - 3) <;> cases input.get? (i + 3) <;>
        cases input.get? (i - ew) <;> cases input.get? (i + ew) <;>
        simp [Except.bind] <;> intro h <;> exact h.symm
    rw [hf]

theorem clampSteps_eq_clamp (x : Int) : clampSteps x = clamp x 0 255 := by
  unfold clampSteps clamp
  simp only []
  split_ifs <;> omega

theorem clampSteps_range (x : Int) : 0 ≤ clampSteps x ∧ clampSteps x ≤ 255 := by
  unfold clampSteps
  simp only []
  split_ifs <;> omega

theorem toUInt8_clampSteps_val (x : Int) :
    ((toUInt8 (clampSteps x)).val : Int) = clamp x 0 255 := by
  have h := clampSteps_range x
  rw [← clampSteps_eq_clamp]
  unfold toUInt8
  simp only []
  omega

theorem loopBody_eq (input : Buffer) (ew : Int) (output : Buffer) (i : Int) :
    loopBody input ew output i =
      (storedValue input ew i).bind fun a =>
        match a with
        | none => .ok output
        | some v => output.write i v := by
  unfold loopBody storedValue
  cases skipTest ew i with
  | error f => rfl
  | ok skip =>
    cases skip with
    | true => rfl
    | false =>
      cases stencil input ew i with
      | error f => rfl
      | ok r => rfl

/-! The loop -/

theorem Buffer.inside_of_shape {a b : Buffer} (ho : a.origin = b.origin)
    (hl : a.cells.length = b.cells.length) (k : Int) : a.inside k ↔ b.inside k := by
  unfold Buffer.inside
  rw [ho, hl]

theorem loopBody_ok {input : Buffer} {ew : Int} {output mid : Buffer} {i : Int}
    (h : loopBody input ew output i = .ok mid) :
    mid.origin = output.origin ∧ mid.cells.length = output.cells.length ∧
    (∃ a, storedValue input ew i = .ok a ∧
      (∀ v, a = some v → output.inside i ∧ mid.get? i = some v) ∧
      (a = none → mid = output)) ∧
    (∀ k, k ≠ i → mid.get? k = output.get? k) := by
  rw [loopBody_eq] at h
  cases hs : storedValue input ew i with
  | error f => simp [hs, Except.bind] at h
  | ok a =>
    cases a with
    | none =>
      simp only [hs, Except.bind, Except.ok.injEq] at h
      subst h
      exact ⟨rfl, rfl, ⟨none, rfl, by simp, fun _ => rfl⟩, fun _ _ => rfl⟩
    | some v =>
      simp only [hs, Except.bind] at h
      have hshape := Buffer.write_shape h
      refine ⟨hshape.1, hshape.2, ⟨some v, rfl, ?_, by simp⟩, ?_⟩
      · intro v' hv'
        cases hv'
        exact ⟨(Buffer.write_ok_iff output i v).1 ⟨mid, h⟩, Buffer.write_get?_same h⟩
      · intro k hk
        exact Buffer.write_get?_other h hk

theorem loopBody_returns {input : Buffer} {ew : Int} {output : Buffer} {i : Int}
    (h : bodyDefined input ew output i) : ∃ mid, loopBody input ew output i = .ok mid := by
  obtain ⟨a, ha, hin⟩ := h
  rw [loopBody_eq, ha]
  cases a with
  | none => exact ⟨output, rfl⟩
  | some v => exact (Buffer.write_ok_iff output i v).2 (hin rfl)

theorem bodyDefined_of_shape {input : Buffer} {ew : Int} {a b : Buffer}
    (ho : a.origin = b.origin) (hl : a.cells.length = b.cells.length) (i : Int) :
    bodyDefined input ew a i ↔ bodyDefined input ew b i := by
  unfold bodyDefined
  simp only [Buffer.inside_of_shape ho hl]

/-- What a completed run of the loop body over `order` leaves behind. -/
theorem runInOrder_ok {input : Buffer} {ew : Int} :
    ∀ {order : List Int} {output out : Buffer},
    runInOrder input ew order output = .ok out →
    out.origin = output.origin ∧ out.cells.length = output.cells.length ∧
    (∀ i ∈ order, ∃ a, storedValue input ew i = .ok a ∧
      (∀ v, a = some v → output.inside i ∧ out.get? i = some v)) ∧
    (∀ k, (k ∉ order ∨ storedValue input ew k = .ok none) → out.get? k = output.get? k) := by
  intro order
  induction order with
  | nil =>
    intro output out h
    simp only [runInOrder, Except.ok.injEq] at h
    subst h
    simp
  | cons i rest ih =>
    intro output out h
    unfold runInOrder at h
    cases hb : loopBody input ew output i with
    | error f => simp [hb, Except.bind] at h
    | ok mid =>
      simp only [hb, Except.bind] at h
      obtain ⟨ho, hl, hwr, hfr⟩ := ih h
      obtain ⟨mo, ml, ⟨a, ha, hsome, hnone⟩, mother⟩ := loopBody_ok hb
      have keep : ∀ k, (k ∉ rest ∨ storedValue input ew k = .ok none) → k ≠ i ∨ a = none →
          out.get? k = output.get? k := by
        intro k hk hki
        rw [hfr k hk]
        rcases hki with hki | hki
        · exact mother k hki
        · rw [hnone hki]
      refine ⟨ho.trans mo, hl.trans ml, ?_, ?_⟩
      · intro j hj
        by_cases hjr : j ∈ rest
        · obtain ⟨b, hb1, hb2⟩ := hwr j hjr
          refine ⟨b, hb1, fun v hv => ?_⟩
          obtain ⟨h1, h2⟩ := hb2 v hv
          exact ⟨(Buffer.inside_of_shape mo ml j).1 h1, h2⟩
        · have hji : j = i := by
            rcases List.mem_cons.1 hj with h1 | h1
            · exact h1
            · exact absurd h1 hjr
          subst hji
          refine ⟨a, ha, fun v hv => ?_⟩
          obtain ⟨h1, h2⟩ := hsome v hv
          refine ⟨h1, ?_⟩
          rw [hfr j (Or.inl hjr)]
          exact h2
      · intro k hk
        rcases hk with hk | hk
        · have hk1 : k ≠ i := fun e => hk (e ▸ List.mem_cons_self _ _)
          have hk2 : k ∉ rest := fun e => hk (List.mem_cons_of_mem _ e)
          exact keep k (Or.inl hk2) (Or.inl hk1)
        · by_cases hki : k = i
          · subst hki
            have : a = none := by
              rw [ha] at hk
              simpa using hk
            exact keep k (Or.inr hk) (Or.inr this)
          · exact keep k (Or.inr hk) (Or.inl hki)

/-- A run over `order` completes exactly when the loop body is defined at each index. -/
theorem runInOrder_returns_iff {input : Buffer} {ew : Int} :
    ∀ {order : List Int} {output : Buffer},
    (∃ out, runInOrder input ew order output = .ok out) ↔
      ∀ i ∈ order, bodyDefined input ew output i := by
  intro order
  induction order with
  | nil =>
    intro output
    simp [runInOrder]
  | cons i rest ih =>
    intro output
    constructor
    · rintro ⟨out, h⟩
      obtain ⟨_, _, hwr, _⟩ := runInOrder_ok h
      intro j hj
      obtain ⟨a, ha, hv⟩ := hwr j hj
      refine ⟨a, ha, fun hsome => ?_⟩
      obtain ⟨v, hv2⟩ := Option.isSome_iff_exists.1 hsome
      exact (hv v hv2).1
    · intro hall
      obtain ⟨mid, hmid⟩ := loopBody_returns (hall i (List.mem_cons_self _ _))
      obtain ⟨mo, ml, _, _⟩ := loopBody_ok hmid
      have hrest : ∀ j ∈ rest, bodyDefined input ew mid j := fun j hj =>
        (bodyDefined_of_shape mo ml j).2 (hall j (List.mem_cons_of_mem _ hj))
      obtain ⟨out, hout⟩ := ih.2 hrest
      exact ⟨out, by simp [runInOrder, hmid, Except.bind, hout]⟩

theorem forLoop_eq_runInOrder (input : Buffer) (ew : Int) :
    ∀ (n : Nat) (s : Int) (output : Buffer),
    forLoop input ew n s output =
      runInOrder input ew ((List.range n).map fun (k : Nat) => s + (k : Int)) output := by
  intro n
  induction n with
  | zero => intro s output; rfl
  | succ n ih =>
    intro s output
    have hl : (List.range (n + 1)).map (fun (k : Nat) => s + (k : Int))
        = s :: (List.range n).map (fun (k : Nat) => (s + 1) + (k : Int)) := by
      rw [List.range_succ_eq_map]
      simp only [List.map_cons, List.map_map, Nat.cast_zero, add_zero, List.cons.injEq, true_and]
      apply List.map_congr_left
      intro k _
      simp only [Function.comp, Nat.cast_succ]
      omega
    rw [hl]
    simp only [forLoop, runInOrder, ih]

theorem ApplyLaplaceFilter_eq_runInOrder (input output : Buffer) (width end_ : Int) :
    ApplyLaplaceFilter input output width end_ =
      runInOrder input (extendedWidth width) (indices end_) output := by
  unfold ApplyLaplaceFilter indices
  rw [forLoop_eq_runInOrder]
  have hl : (List.range end_.toNat).map (fun (k : Nat) => (0 : Int) + (k : Int))
      = (List.range end_.toNat).map Int.ofNat := by
    apply List.map_congr_left
    intro k _
    simp
  rw [hl]

theorem mem_indices (end_ i : Int) : i ∈ indices end_ ↔ 0 ≤ i ∧ i < end_ := by
  unfold indices
  simp only [List.mem_map, List.mem_range]
  constructor
  · rintro ⟨k, hk, rfl⟩
    simp only [Int.ofNat_eq_coe]
    omega
  · rintro ⟨h0, h1⟩
    exact ⟨i.toNat, by omega, by simp only [Int.ofNat_eq_coe]; omega⟩

/-! Completed calls -/

theorem extendedWidth_eq (width : Int) : extendedWidth width = 3 * width := by
  unfold extendedWidth
  omega

theorem storedValue_skipped (input : Buffer) (ew i : Int) (hew : 0 < ew) (hi : 0 ≤ i)
    (hs : skipped ew i) : storedValue input ew i = .ok none := by
  simp [storedValue, skipTest_eq ew i hew hi, hs, Except.bind]

theorem storedValue_interior (input : Buffer) (ew i : Int) (hew : 0 < ew) (hi : 0 ≤ i)
    (hs : ¬ skipped ew i) :
    storedValue input ew i =
      (stencil input ew i).bind fun r => .ok (some (toUInt8 (clampSteps r))) := by
  simp [storedValue, skipTest_eq ew i hew hi, hs, Except.bind]

/-- Everything a completed call with `width ≥ 1` determines about the final output. -/
theorem apply_ok_facts {input output out : Buffer} {width end_ : Int} (hw : 1 ≤ width)
    (hrun : ApplyLaplaceFilter input output width end_ = .ok out) :
    out.origin = output.origin ∧ out.cells.length = output.cells.length ∧
    (∀ i, 0 ≤ i → i < end_ → ¬ skipped (3 * width) i →
      (∀ k ∈ stencilIndices (3 * width) i, input.inside k) ∧ output.inside i ∧
      out.get? i = some (toUInt8 (clampSteps (laplace input (3 * width) i)))) ∧
    (∀ k, (k < 0 ∨ end_ ≤ k ∨ skipped (3 * width) k) → out.get? k = output.get? k) := by
  rw [ApplyLaplaceFilter_eq_runInOrder, extendedWidth_eq] at hrun
  have hew : 0 < 3 * width := by omega
  obtain ⟨ho, hl, hwr, hfr⟩ := runInOrder_ok hrun
  refine ⟨ho, hl, ?_, ?_⟩
  · intro i h0 h1 hns
    obtain ⟨a, ha, hv⟩ := hwr i ((mem_indices end_ i).2 ⟨h0, h1⟩)
    rw [storedValue_interior input _ i hew h0 hns] at ha
    cases hst : stencil input (3 * width) i with
    | error f => simp [hst, Except.bind] at ha
    | ok r =>
      have hin := stencil_ok_inside input _ i r hst
      have hr : r = laplace input (3 * width) i := by
        have := stencil_eq_laplace input _ i hin
        rw [hst] at this
        exact Except.ok.inj this
      simp only [hst, Except.bind, Except.ok.injEq] at ha
      obtain ⟨h1, h2⟩ := hv _ ha.symm
      exact ⟨hin, h1, hr ▸ h2⟩
  · intro k hk
    apply hfr
    by_cases hmem : k ∈ indices end_
    · right
      have hb := (mem_indices end_ k).1 hmem
      have hs : skipped (3 * width) k := by
        rcases hk with h | h | h
        · omega
        · omega
        · exact h
      exact storedValue_skipped input _ k hew hb.1 hs
    · exact Or.inl hmem

/-- A call with `width ≥ 1` completes exactly when every index it processes has its
five stencil positions inside the input and its own position inside the output. -/
theorem apply_returns_iff (input output : Buffer) (width end_ : Int) (hw : 1 ≤ width) :
    (∃ out, ApplyLaplaceFilter input output width end_ = .ok out) ↔
      ∀ i, 0 ≤ i → i < end_ → ¬ skipped (3 * width) i →
        (∀ k ∈ stencilIndices (3 * width) i, input.inside k) ∧ output.inside i := by
  have hew : 0 < 3 * width := by omega
  constructor
  · rintro ⟨out, hrun⟩ i h0 h1 hns
    obtain ⟨_, _, h, _⟩ := apply_ok_facts hw hrun
    exact ⟨(h i h0 h1 hns).1, (h i h0 h1 hns).2.1⟩
  · intro hall
    rw [ApplyLaplaceFilter_eq_runInOrder, extendedWidth_eq]
    apply runInOrder_returns_iff.2
    intro i hi
    obtain ⟨h0, h1⟩ := (mem_indices end_ i).1 hi
    by_cases hs : skipped (3 * width) i
    · exact ⟨none, storedValue_skipped input _ i hew h0 hs, by simp⟩
    · obtain ⟨hin, hout⟩ := hall i h0 h1 hs
      refine ⟨some (toUInt8 (clampSteps (laplace input (3 * width) i))), ?_, fun _ => hout⟩
      rw [storedValue_interior input _ i hew h0 hs, stencil_eq_laplace input _ i hin]
      rfl

theorem add_three_emod (s i : Int) (hs : 3 ≤ s) :
    (i + 3) % s = if i % s + 3 < s then i % s + 3 else i % s + 3 - s := by
  have h0 : 0 ≤ i % s := Int.emod_nonneg i (by omega)
  have h1 : i % s < s := Int.emod_lt_of_pos i (by omega)
  rw [← Int.emod_add_emod i s 3]
  split_ifs with h
  · exact Int.emod_eq_of_lt (by omega) h
  · have e : i % s + 3 = (i % s + 3 - s) + s := by omega
    rw [e, Int.add_emod_self]
    have := Int.emod_eq_of_lt (a := i % s + 3 - s) (b := s) (by omega) (by omega)
    rw [this]
    omega

/-- An index is skipped exactly when its offset in the row is among the first three
or the last three. -/
theorem skipped_iff_offset (s i : Int) (hs : 3 ≤ s) :
    skipped s i ↔ (i % s ≤ 2 ∨ s - 3 ≤ i % s) := by
  have h0 : 0 ≤ i % s := Int.emod_nonneg i (by omega)
  have h1 : i % s < s := Int.emod_lt_of_pos i (by omega)
  unfold skipped
  rw [add_three_emod s i hs]
  split_ifs with h <;> omega

/-- Two orders that visit the same indices complete together and then leave the same
output. -/
theorem runInOrder_same_indices (input : Buffer) (ew : Int) (output : Buffer)
    (p q : List Int) (hpq : ∀ k, k ∈ p ↔ k ∈ q) :
    (runInOrder input ew p output).toOption = (runInOrder input ew q output).toOption := by
  have hdef : (∃ out, runInOrder input ew p output = .ok out) ↔
      (∃ out, runInOrder input ew q output = .ok out) := by
    rw [runInOrder_returns_iff, runInOrder_returns_iff]
    exact ⟨fun h i hi => h i ((hpq i).2 hi), fun h i hi => h i ((hpq i).1 hi)⟩
  cases hp : runInOrder input ew p output with
  | error f =>
    cases hq : runInOrder input ew q output with
    | error g => rfl
    | ok b =>
      obtain ⟨a, ha⟩ := hdef.2 ⟨b, hq⟩
      rw [hp] at ha
      cases ha
  | ok a =>
    cases hq : runInOrder input ew q output with
    | error g =>
      obtain ⟨b, hb⟩ := hdef.1 ⟨a, hp⟩
      rw [hq] at hb
      cases hb
    | ok b =>
      obtain ⟨ao, _, awr, afr⟩ := runInOrder_ok hp
      obtain ⟨bo, _, bwr, bfr⟩ := runInOrder_ok hq
      have hab : a = b := by
        apply Buffer.ext_get? (ao.trans bo.symm)
        intro k
        by_cases hk : k ∈ p
        · obtain ⟨x, hx, hxv⟩ := awr k hk
          obtain ⟨y, hy, hyv⟩ := bwr k ((hpq k).1 hk)
          have hxy : x = y := by
            rw [hx] at hy
            exact Except.ok.inj hy
          subst hxy
          cases x with
          | none => rw [afr k (Or.inr hx), bfr k (Or.inr hx)]
          | some v => rw [(hxv v rfl).2, (hyv v rfl).2]
        · have hk2 : k ∉ q := fun h => hk ((hpq k).2 h)
          rw [afr k (Or.inl hk), bfr k (Or.inl hk2)]
      rw [hab]

/-! Faulting calls -/

theorem loopBody_skipped (input : Buffer) (ew : Int) (output : Buffer) (i : Int)
    (hew : 0 < ew) (hi : 0 ≤ i) (hs : skipped ew i) :
    loopBody input ew output i = .ok output := by
  rw [loopBody_eq, storedValue_skipped input ew i hew hi hs]
  rfl

/-- A non-skipped index leaves room for three bytes on each side within its row. -/
theorem not_skipped_offset (s i : Int) (hs : 3 ≤ s) (h : ¬ skipped s i) :
    3 ≤ i % s ∧ i % s ≤ s - 4 := by
  rw [skipped_iff_offset s i hs] at h
  omega

/-! The contract of the kernel -/

/-- C2: after a completed call with `width ≥ 1`, every index of `[0, end)` with
`i mod stride ≤ 2` or `(i+3) mod stride ≤ 2` holds in the output what it held before the
call. -/
theorem skipped_positions_unchanged (input output out : Buffer) (width end_ i : Int)
    (hw : 1 ≤ width) (hi0 : 0 ≤ i) (hi1 : i < end_)
    (hs : i % (3 * width) ≤ 2 ∨ (i + 3) % (3 * width) ≤ 2)
    (hrun : ApplyLaplaceFilter input output width end_ = .ok out) :
    out.get? i = output.get? i := by
  obtain ⟨_, _, _, h⟩ := apply_ok_facts hw hrun
  exact h i (Or.inr (Or.inr hs))

/-- C2, on the sample row: index 7 belongs to the last pixel and keeps its `7`. -/
theorem skipped_positions_unchanged_witness :
    Buffer.get? ⟨[7, 7, 7, 36, 255, 14, 7, 7, 7], 0⟩ 7 = rowOutput.get? 7 :=
  skipped_positions_unchanged rowInput rowOutput _ 3 9 7 (by decide) (by decide) (by decide)
    (by decide) (by decide)

/-- C3: the kernel only touches output positions in `[0, end)`.  For `end ≤ 0` the call
returns the output as it was, whatever the input (even an empty allocation, where any
read would fault); and a completed call with `width ≥ 1` leaves the pointer and the length
of the output allocation as they were and keeps the content of every index `j ≥ end`. -/
theorem output_outside_range_untouched (input output : Buffer) (width end_ : Int)
    (hw : 1 ≤ width) :
    (end_ ≤ 0 → ApplyLaplaceFilter input output width end_ = .ok output) ∧
    (∀ out, ApplyLaplaceFilter input output width end_ = .ok out →
      out.origin = output.origin ∧ out.cells.length = output.cells.length ∧
      ∀ j, end_ ≤ j → out.get? j = output.get? j) := by
  constructor
  · intro he
    have h0 : end_.toNat = 0 := by omega
    simp [ApplyLaplaceFilter, h0, forLoop]
  · intro out hrun
    obtain ⟨ho, hl, _, h⟩ := apply_ok_facts hw hrun
    exact ⟨ho, hl, fun j hj => h j (Or.inr (Or.inl hj))⟩

/-- C3, on an empty input with `end = 0`, and on the sample row processed up to
`end = 5`, where indices 5 to 8 keep their `7`. -/
theorem output_outside_range_untouched_witness :
    ApplyLaplaceFilter ⟨[], 0⟩ rowOutput 3 0 = .ok rowOutput ∧
    ApplyLaplaceFilter rowInput rowOutput 3 5 = .ok ⟨[7, 7, 7, 36, 255, 7, 7, 7, 7], 0⟩ ∧
    (∀ j : Int, 5 ≤ j →
      Buffer.get? ⟨[7, 7, 7, 36, 255, 7, 7, 7, 7], 0⟩ j = rowOutput.get? j) :=
  ⟨(output_outside_range_untouched ⟨[], 0⟩ rowOutput 3 0 (by decide)).1 (by decide),
   by decide,
   ((output_outside_range_untouched rowInput rowOutput 3 5 (by decide)).2 _ (by decide)).2.2⟩

/-- C6: order independence.  For `width ≥ 1`, `end ≥ 0` and every permutation `p` of the
indices `0, ..., end-1`, running the loop body once per index in the order `p`, reading
from the input, ends in the same output buffer as the ascending sweep of the code; and
it faults exactly when the ascending sweep does. -/
theorem order_independence (input output : Buffer) (width end_ : Int) (p : List Int)
    (hw : 1 ≤ width) (he : 0 ≤ end_) (hp : List.Perm p (indices end_)) :
    (runInOrder input (extendedWidth width) p output).toOption =
      (ApplyLaplaceFilter input output width end_).toOption := by
  rw [ApplyLaplaceFilter_eq_runInOrder]
  exact runInOrder_same_indices input _ output p _ fun k => hp.mem_iff

/-- C6, on the sample row swept in a scrambled order. -/
theorem order_independence_witness :
    (runInOrder rowInput (extendedWidth 3) [4, 8, 0, 5, 3, 7, 1, 6, 2] rowOutput).toOption =
      (ApplyLaplaceFilter rowInput rowOutput 3 9).toOption ∧
    ApplyLaplaceFilter rowInput rowOutput 3 9 = .ok ⟨[7, 7, 7, 36, 255, 14, 7, 7, 7], 0⟩ :=
  ⟨order_independence rowInput rowOutput 3 9 [4, 8, 0, 5, 3, 7, 1, 6, 2] (by decide)
    (by decide) (by decide), by decide⟩

/-- C8: idempotence fails.  There are a width, an end, an input and an initial output,
all reads inside the buffers, for which filtering the result of a first call once more
gives a different buffer than the first call did. -/
theorem not_idempotent :
    ∃ (width end_ : Int) (input output once twice : Buffer),
      ApplyLaplaceFilter input output width end_ = .ok once ∧
      ApplyLaplaceFilter once output width end_ = .ok twice ∧
      twice ≠ once :=
  ⟨3, 9,
   ⟨[0, 0, 0, 0, 0, 0, 0, 0, 0, 0, 0, 0, 0, 10, 0, 0, 0, 0, 0, 0, 0, 0, 0, 0, 0, 0, 0], 9⟩,
   ⟨[0, 0, 0, 0, 0, 0, 0, 0, 0, 0, 0, 0, 0, 0, 0, 0, 0, 0, 0, 0, 0, 0, 0, 0, 0, 0, 0], 9⟩,
   ⟨[0, 0, 0, 0, 0, 0, 0, 0, 0, 0, 0, 0, 0, 40, 0, 0, 0, 0, 0, 0, 0, 0, 0, 0, 0, 0, 0], 9⟩,
   ⟨[0, 0, 0, 0, 0, 0, 0, 0, 0, 0, 0, 0, 0, 160, 0, 0, 0, 0, 0, 0, 0, 0, 0, 0, 0, 0, 0], 9⟩,
   by decide, by decide, by decide⟩

/-- C10: away from the first and the last row every access is in bounds
(`stride = 3*width`, `width ≥ 1`, `rows ≥ 1`, `end = rows*stride`).  A non-skipped index
`i` with `stride ≤ i < end - stride` has its five read indices and its write index in
`[0, end)`, so on buffers that are exactly the `end` bytes of the image the loop body
completes at `i`; and a non-skipped index of `[0, end)` in any row has `i-3` and `i+3`
in `[0, end)`. -/
theorem interior_rows_in_bounds (input output : Buffer) (width rows end_ : Int)
    (hw : 1 ≤ width) (hr : 1 ≤ rows) (he : end_ = rows * (3 * width)) :
    (∀ i, 3 * width ≤ i → i < end_ - 3 * width → ¬ skipped (3 * width) i →
      (∀ k ∈ stencilIndices (3 * width) i, 0 ≤ k ∧ k < end_) ∧ (0 ≤ i ∧ i < end_)) ∧
    (input.origin = 0 → input.cells.length = end_ →
      output.origin = 0 → output.cells.length = end_ →
      ∀ i, 3 * width ≤ i → i < end_ - 3 * width → ¬ skipped (3 * width) i →
        ∃ mid, loopBody input (3 * width) output i = .ok mid) ∧
    (∀ i, 0 ≤ i → i < end_ → ¬ skipped (3 * width) i →
      (0 ≤ i - 3 ∧ i - 3 < end_) ∧ (0 ≤ i + 3 ∧ i + 3 < end_)) := by
  have hew : 0 < 3 * width := by omega
  have hfirst : ∀ i, 3 * width ≤ i → i < end_ - 3 * width →
      (∀ k ∈ stencilIndices (3 * width) i, 0 ≤ k ∧ k < end_) ∧ (0 ≤ i ∧ i < end_) := by
    intro i h1 h2
    simp only [stencilIndices, List.mem_cons, List.mem_singleton, List.not_mem_nil, or_false,
      forall_eq_or_imp, forall_eq]
    omega
  refine ⟨fun i h1 h2 _ => hfirst i h1 h2, ?_, ?_⟩
  · intro hio hil hoo hol i h1 h2 hns
    obtain ⟨hk, hi⟩ := hfirst i h1 h2
    apply loopBody_returns
    refine ⟨some (toUInt8 (clampSteps (laplace input (3 * width) i))), ?_, fun _ => ?_⟩
    · rw [storedValue_interior input _ i hew (by omega) hns, stencil_eq_laplace input _ i]
      · rfl
      · intro k hkm
        have := hk k hkm
        unfold Buffer.inside
        rw [hio, hil]
        simp only [Nat.cast_zero, zero_add]
        exact this
    · unfold Buffer.inside
      rw [hoo, hol]
      simp only [Nat.cast_zero, zero_add]
      exact hi
  · intro i h0 h1 hns
    have hoff := not_skipped_offset (3 * width) i (by omega) hns
    have hm := Int.emod_add_ediv i (3 * width)
    have hq0 : 0 ≤ i / (3 * width) := Int.ediv_nonneg h0 (by omega)
    have hq1 : i / (3 * width) < rows := Int.ediv_lt_of_lt_mul hew (he ▸ h1)
    have hp0 : 0 ≤ 3 * width * (i / (3 * width)) := mul_nonneg (by omega) hq0
    have hp1 : 3 * width * (i / (3 * width) + 1) ≤ 3 * width * rows :=
      mul_le_mul_of_nonneg_left (by omega) (by omega)
    have hexp : 3 * width * (i / (3 * width) + 1)
        = 3 * width * (i / (3 * width)) + 3 * width := by ring
    have hcomm : rows * (3 * width) = 3 * width * rows := by ring
    rw [hexp] at hp1
    rw [he, hcomm]
    omega

/-- C10, on three rows of three pixels (`end = 27`): index 13 of the middle row reads
and writes inside `[0, 27)`, and index 23 of the last row has `i-3` and `i+3` there. -/
theorem interior_rows_in_bounds_witness :
    ((∀ k ∈ stencilIndices (3 * 3) 13, 0 ≤ k ∧ k < (27 : Int)) ∧
      ((0 : Int) ≤ 13 ∧ (13 : Int) < 27)) ∧
    (∃ mid, loopBody (uniform 50 27 0) (3 * 3) (uniform 7 27 0) 13 = .ok mid) ∧
    (((0 : Int) ≤ 23 - 3 ∧ (23 : Int) - 3 < 27) ∧ ((0 : Int) ≤ 23 + 3 ∧ (23 : Int) + 3 < 27)) :=
  have h := interior_rows_in_bounds (uniform 50 27 0) (uniform 7 27 0) 3 3 27
    (by decide) (by decide) (by decide)
  ⟨h.1 13 (by decide) (by decide) (by decide),
   h.2.1 rfl rfl rfl rfl 13 (by decide) (by decide) (by decide),
   h.2.2 23 (by decide) (by decide) (by decide)⟩

/-! The skip test and the geometry of the image -/

/-- Row and offset of an index shifted by `d` bytes and `e` rows, when the shifted
offset stays inside the row. -/
theorem row_offset_shift (s i d e : Int) (hs : 0 < s) (h0 : 0 ≤ i % s + d)
    (h1 : i % s + d < s) :
    (i + d + e * s) / s = i / s + e ∧ (i + d + e * s) % s = i % s + d := by
  apply (Int.ediv_emod_unique hs).2
  refine ⟨?_, h0, h1⟩
  have hm := Int.emod_add_ediv i s
  have hr : s * (i / s + e) = s * (i / s) + e * s := by ring
  rw [hr]
  omega

/-- C13: the four neighbour offsets address the same colour channel of the adjacent
pixels.  For `width ≥ 1` (`stride = 3*width`) and a non-skipped index `i ≥ stride`, the
loop body reads `i`, `i-3`, `i+3`, `i-stride`, `i+stride`; the four neighbours have the
channel of `i` (same value mod 3); `i-3` and `i+3` are in the row of `i` at the pixel
columns one less and one more; `i-stride` and `i+stride` are in the rows one less and
one more, at the offset of `i` within the row. -/
theorem neighbours_same_channel (width i : Int) (hw : 1 ≤ width) (hi : 3 * width ≤ i)
    (hns : 2 < i % (3 * width) ∧ 2 < (i + 3) % (3 * width)) :
    stencilIndices (extendedWidth width) i =
      [i, i - 3, i + 3, i - 3 * width, i + 3 * width] ∧
    ((i - 3) % 3 = i % 3 ∧ (i + 3) % 3 = i % 3 ∧
      (i - 3 * width) % 3 = i % 3 ∧ (i + 3 * width) % 3 = i % 3) ∧
    ((i - 3) / (3 * width) = i / (3 * width) ∧ (i + 3) / (3 * width) = i / (3 * width)) ∧
    ((i - 3) % (3 * width) / 3 = i % (3 * width) / 3 - 1 ∧
      (i + 3) % (3 * width) / 3 = i % (3 * width) / 3 + 1) ∧
    ((i - 3 * width) / (3 * width) = i / (3 * width) - 1 ∧
      (i + 3 * width) / (3 * width) = i / (3 * width) + 1) ∧
    ((i - 3 * width) % (3 * width) = i % (3 * width) ∧
      (i + 3 * width) % (3 * width) = i % (3 * width)) := by
  have hew : 0 < 3 * width := by omega
  have hns2 : ¬ skipped (3 * width) i := by
    unfold skipped
    omega
  obtain ⟨hlo, hhi⟩ := not_skipped_offset (3 * width) i (by omega) hns2
  have hl := row_offset_shift (3 * width) i (-3) 0 hew (by omega) (by omega)
  have hr := row_offset_shift (3 * width) i 3 0 hew (by omega) (by omega)
  have ht := row_offset_shift (3 * width) i 0 (-1) hew (by omega) (by omega)
  have hb := row_offset_shift (3 * width) i 0 1 hew (by omega) (by omega)
  have el : i + -3 + 0 * (3 * width) = i - 3 := by ring
  have er : i + 3 + 0 * (3 * width) = i + 3 := by ring
  have et : i + 0 + -1 * (3 * width) = i - 3 * width := by ring
  have eb : i + 0 + 1 * (3 * width) = i + 3 * width := by ring
  rw [el] at hl
  rw [er] at hr
  rw [et] at ht
  rw [eb] at hb
  refine ⟨by simp [stencilIndices, extendedWidth_eq], ⟨by omega, by omega, by omega, by omega⟩,
    ⟨by omega, by omega⟩, ⟨?_, ?_⟩, ⟨by omega, by omega⟩, ⟨by omega, by omega⟩⟩
  · rw [hl.2]
    omega
  · rw [hr.2]
    omega

/-- C13, at `width = 4` (stride 12) and index 17: row 1, column 1, channel 2. -/
theorem neighbours_same_channel_witness :
    stencilIndices (extendedWidth 4) 17 = [17, 17 - 3, 17 + 3, 17 - 3 * 4, 17 + 3 * 4] ∧
    (((17 : Int) - 3) / (3 * 4) = 17 / (3 * 4) ∧ ((17 : Int) + 3) / (3 * 4) = 17 / (3 * 4)) ∧
    (((17 : Int) - 3 * 4) % (3 * 4) = 17 % (3 * 4) ∧
      ((17 : Int) + 3 * 4) % (3 * 4) = 17 % (3 * 4)) :=
  have h := neighbours_same_channel 4 17 (by decide) (by decide) (by decide)
  ⟨h.1, h.2.2.1, h.2.2.2.2.2⟩

/-! Arithmetic of the stencil, narrow images -/

/-- C14: the stencil arithmetic cannot overflow and the narrowing store is lossless.
For bytes `c, l, r, t, b` every intermediate value of `4*c`, `- l`, `- r`, `- t`, `- b`
lies in `[-1020, 1020]`, each 32-bit step of the code returns the integer value, the
bounds `-1020` and `1020` are attained, and for every `int` the value left by the two
clamp statements lies in `[0, 255]` and is not changed by the conversion to a byte. -/
theorem stencil_arithmetic_exact (c l r t b : Byte) (x : Int) :
    ((-1020 ≤ 4 * (c.val : Int) ∧ 4 * (c.val : Int) ≤ 1020) ∧
      (-1020 ≤ 4 * (c.val : Int) - l.val ∧ 4 * (c.val : Int) - l.val ≤ 1020) ∧
      (-1020 ≤ 4 * (c.val : Int) - l.val - r.val ∧
        4 * (c.val : Int) - l.val - r.val ≤ 1020) ∧
      (-1020 ≤ 4 * (c.val : Int) - l.val - r.val - t.val ∧
        4 * (c.val : Int) - l.val - r.val - t.val ≤ 1020) ∧
      (-1020 ≤ 4 * (c.val : Int) - l.val - r.val - t.val - b.val ∧
        4 * (c.val : Int) - l.val - r.val - t.val - b.val ≤ 1020)) ∧
    (wrapInt32 (4 * (c.val : Int)) = 4 * (c.val : Int) ∧
      wrapInt32 (wrapInt32 (4 * (c.val : Int)) - l.val) = 4 * (c.val : Int) - l.val ∧
      wrapInt32 (wrapInt32 (wrapInt32 (4 * (c.val : Int)) - l.val) - r.val)
        = 4 * (c.val : Int) - l.val - r.val ∧
      wrapInt32 (wrapInt32 (wrapInt32 (wrapInt32 (4 * (c.val : Int)) - l.val) - r.val)
          - t.val)
        = 4 * (c.val : Int) - l.val - r.val - t.val ∧
      wrapInt32 (wrapInt32 (wrapInt32 (wrapInt32 (wrapInt32 (4 * (c.val : Int)) - l.val)
          - r.val) - t.val) - b.val)
        = 4 * (c.val : Int) - l.val - r.val - t.val - b.val) ∧
    ((∃ c0 l0 r0 t0 b0 : Byte,
        wrapInt32 (wrapInt32 (wrapInt32 (wrapInt32 (wrapInt32 (4 * (c0.val : Int)) - l0.val)
          - r0.val) - t0.val) - b0.val) = -1020) ∧
      (∃ c1 l1 r1 t1 b1 : Byte,
        wrapInt32 (wrapInt32 (wrapInt32 (wrapInt32 (wrapInt32 (4 * (c1.val : Int)) - l1.val)
          - r1.val) - t1.val) - b1.val) = 1020)) ∧
    ((0 ≤ clampSteps x ∧ clampSteps x ≤ 255) ∧
      clampSteps x % 256 = clampSteps x ∧
      ((toUInt8 (clampSteps x)).val : Int) = clampSteps x) := by
  have bc := c.isLt
  have bl := l.isLt
  have br := r.isLt
  have bt := t.isLt
  have bb := b.isLt
  have w1 : wrapInt32 (4 * (c.val : Int)) = 4 * (c.val : Int) :=
    wrapInt32_of_small _ (by omega) (by omega)
  have w2 : wrapInt32 (4 * (c.val : Int) - l.val) = 4 * (c.val : Int) - l.val :=
    wrapInt32_of_small _ (by omega) (by omega)
  have w3 : wrapInt32 (4 * (c.val : Int) - l.val - r.val) = 4 * (c.val : Int) - l.val - r.val :=
    wrapInt32_of_small _ (by omega) (by omega)
  have w4 : wrapInt32 (4 * (c.val : Int) - l.val - r.val - t.val)
      = 4 * (c.val : Int) - l.val - r.val - t.val :=
    wrapInt32_of_small _ (by omega) (by omega)
  have hrange := clampSteps_range x
  refine ⟨by omega, ⟨w1, ?_, ?_, ?_, wrapped_stencil c l r t b⟩, ⟨?_, ?_⟩, hrange, ?_, ?_⟩
  · rw [w1, w2]
  · rw [w1, w2, w3]
  · rw [w1, w2, w3, w4]
  · exact ⟨0, 255, 255, 255, 255, by rw [wrapped_stencil]; decide⟩
  · exact ⟨255, 0, 0, 0, 0, by rw [wrapped_stencil]; decide⟩
  · omega
  · rw [toUInt8_clampSteps_val, clampSteps_eq_clamp]

theorem forLoop_all_skipped (input : Buffer) (ew : Int) (output : Buffer) :
    ∀ (n : Nat) (s : Int),
      (∀ k : Nat, k < n → loopBody input ew output (s + (k : Int)) = .ok output) →
      forLoop input ew n s output = .ok output := by
  intro n
  induction n with
  | zero => intro s _; rfl
  | succ n ih =>
    intro s h
    have h0 := h 0 (by omega)
    simp only [Nat.cast_zero, add_zero] at h0
    simp only [forLoop, h0, Except.bind]
    apply ih (s + 1)
    intro k hk
    have := h (k + 1) (by omega)
    have e : s + ((k + 1 : Nat) : Int) = s + 1 + (k : Int) := by
      push_cast
      omega
    rw [e] at this
    exact this

theorem skipped_narrow (width i : Int) (hw : width = 1 ∨ width = 2) :
    skipped (3 * width) i := by
  unfold skipped
  rcases hw with h | h <;> subst h <;> omega

/-- C15: images at most two pixels wide are never filtered.  For `width = 1` and
`width = 2` every index of `[0, end)` passes the skip test, and the call returns the
output buffer as it was, for every input: no input sample is read. -/
theorem narrow_images_never_filtered (input output : Buffer) (width end_ : Int)
    (hw : width = 1 ∨ width = 2) :
    (∀ i, 0 ≤ i → i < end_ → skipTest (extendedWidth width) i = .ok true) ∧
    ApplyLaplaceFilter input output width end_ = .ok output := by
  have hew : 0 < 3 * width := by omega
  constructor
  · intro i h0 _
    rw [extendedWidth_eq, skipTest_eq _ i hew h0]
    simp [skipped_narrow width i hw]
  · unfold ApplyLaplaceFilter
    rw [extendedWidth_eq]
    apply forLoop_all_skipped
    intro k _
    exact loopBody_skipped input _ output _ hew (by omega) (skipped_narrow width _ hw)

/-- C15, at `width = 2`, `end = 9`, with an empty input allocation. -/
theorem narrow_images_never_filtered_witness :
    skipTest (extendedWidth 2) 4 = .ok true ∧
    ApplyLaplaceFilter ⟨[], 0⟩ rowOutput 2 9 = .ok rowOutput ∧
    ApplyLaplaceFilter ⟨[], 0⟩ rowOutput 1 9 = .ok rowOutput :=
  ⟨(narrow_images_never_filtered ⟨[], 0⟩ rowOutput 2 9 (by decide)).1 4 (by decide)
    (by decide),
   (narrow_images_never_filtered ⟨[], 0⟩ rowOutput 2 9 (by decide)).2,
   (narrow_images_never_filtered ⟨[], 0⟩ rowOutput 1 9 (by decide)).2⟩

/-! The processing bound -/

/-- A loop of `n + m` iterations is a loop of `n` followed by a loop of `m`. -/
theorem forLoop_add (input : Buffer) (ew : Int) (m : Nat) :
    ∀ (n : Nat) (s : Int) (output : Buffer),
      forLoop input ew (n + m) s output =
        (forLoop input ew n s output).bind fun mid => forLoop input ew m (s + (n : Int)) mid := by
  intro n
  induction n with
  | zero =>
    intro s output
    simp [forLoop, Except.bind]
  | succ n ih =>
    intro s output
    have e : n + 1 + m = (n + m) + 1 := by omega
    rw [e]
    simp only [forLoop]
    cases loopBody input ew output s with
    | error f => rfl
    | ok mid =>
      simp only [Except.bind]
      rw [ih (s + 1) mid]
      have e2 : s + 1 + (n : Int) = s + ((n + 1 : Nat) : Int) := by
        push_cast
        omega
      rw [e2]
      rfl

/-- Running the same indices again on the result of a completed run changes nothing. -/
theorem runInOrder_again {input : Buffer} {ew : Int} {order : List Int} {output out : Buffer}
    (h : runInOrder input ew order output = .ok out) :
    runInOrder input ew order out = .ok out := by
  obtain ⟨ho, hl, hwr, _⟩ := runInOrder_ok h
  have hdef : ∀ i ∈ order, bodyDefined input ew out i := by
    have := runInOrder_returns_iff.1 ⟨out, h⟩
    intro i hi
    exact (bodyDefined_of_shape ho hl i).2 (this i hi)
  obtain ⟨again, hag⟩ := runInOrder_returns_iff.2 hdef
  obtain ⟨ao, _, awr, afr⟩ := runInOrder_ok hag
  have : again = out := by
    apply Buffer.ext_get? ao
    intro k
    by_cases hk : k ∈ order
    · obtain ⟨a, ha, hv⟩ := awr k hk
      obtain ⟨a2, ha2, hv2⟩ := hwr k hk
      have haa : a = a2 := by
        rw [ha] at ha2
        exact Except.ok.inj ha2
      subst haa
      cases a with
      | none => exact afr k (Or.inr ha)
      | some v => rw [(hv v rfl).2, (hv2 v rfl).2]
    · exact afr k (Or.inl hk)
  rw [hag, this]

theorem forLoop_again {input : Buffer} {ew : Int} {n : Nat} {s : Int} {output out : Buffer}
    (h : forLoop input ew n s output = .ok out) : forLoop input ew n s out = .ok out := by
  rw [forLoop_eq_runInOrder] at h ⊢
  exact runInOrder_again h

/-- C16: the bound `end` only truncates the sweep.  For `width ≥ 1` and `end1 ≤ end2`,
running the kernel with bound `end1` and then with bound `end2` on the resulting output
(same input) gives exactly the result of one run with bound `end2`, faults included; and
when the run with bound `end2` completes, so does the run with bound `end1`, the two
outputs agree at every index below `end1`, and the output of the longer run agrees with
the initial output at every index `≥ end2`. -/
theorem bound_truncates_sweep (input output : Buffer) (width end1 end2 : Int)
    (hw : 1 ≤ width) (h12 : end1 ≤ end2) :
    ((ApplyLaplaceFilter input output width end1).bind fun mid =>
        ApplyLaplaceFilter input mid width end2) =
      ApplyLaplaceFilter input output width end2 ∧
    (∀ out2, ApplyLaplaceFilter input output width end2 = .ok out2 →
      ∃ out1, ApplyLaplaceFilter input output width end1 = .ok out1 ∧
        (∀ i, i < end1 → out2.get? i = out1.get? i) ∧
        (∀ j, end2 ≤ j → out2.get? j = output.get? j)) := by
  obtain ⟨m, hm⟩ : ∃ m : Nat, end2.toNat = end1.toNat + m :=
    ⟨end2.toNat - end1.toNat, by omega⟩
  have hsplit : ∀ b : Buffer, ApplyLaplaceFilter input b width end2 =
      (ApplyLaplaceFilter input b width end1).bind fun mid =>
        forLoop input (extendedWidth width) m (0 + (end1.toNat : Int)) mid := by
    intro b
    unfold ApplyLaplaceFilter
    rw [hm, forLoop_add]
  constructor
  · cases h1 : ApplyLaplaceFilter input output width end1 with
    | error f =>
      rw [hsplit output, h1]
      rfl
    | ok mid =>
      have hag : ApplyLaplaceFilter input mid width end1 = .ok mid := forLoop_again h1
      simp only [Except.bind]
      rw [hsplit mid, hag, hsplit output, h1]
  · intro out2 h2
    cases h1 : ApplyLaplaceFilter input output width end1 with
    | error f =>
      rw [hsplit output, h1] at h2
      cases h2
    | ok out1 =>
      refine ⟨out1, rfl, ?_, ?_⟩
      · obtain ⟨_, _, w1, f1⟩ := apply_ok_facts hw h1
        obtain ⟨_, _, w2, f2⟩ := apply_ok_facts hw h2
        intro i hi
        by_cases hneg : i < 0
        · rw [f1 i (Or.inl hneg), f2 i (Or.inl hneg)]
        · by_cases hs : skipped (3 * width) i
          · rw [f1 i (Or.inr (Or.inr hs)), f2 i (Or.inr (Or.inr hs))]
          · rw [(w1 i (by omega) hi hs).2.2, (w2 i (by omega) (by omega) hs).2.2]
      · obtain ⟨_, _, _, f2⟩ := apply_ok_facts hw h2
        intro j hj
        exact f2 j (Or.inr (Or.inl hj))

/-- C16, on the sample row with bounds 4 and 9. -/
theorem bound_truncates_sweep_witness :
    ApplyLaplaceFilter rowInput rowOutput 3 4 = .ok ⟨[7, 7, 7, 36, 7, 7, 7, 7, 7], 0⟩ ∧
    ApplyLaplaceFilter rowInput ⟨[7, 7, 7, 36, 7, 7, 7, 7, 7], 0⟩ 3 9
      = ApplyLaplaceFilter rowInput rowOutput 3 9 ∧
    (∃ out1, ApplyLaplaceFilter rowInput rowOutput 3 4 = .ok out1 ∧
      (∀ i : Int, i < 4 →
        Buffer.get? ⟨[7, 7, 7, 36, 255, 14, 7, 7, 7], 0⟩ i = out1.get? i) ∧
      (∀ j : Int, 9 ≤ j →
        Buffer.get? ⟨[7, 7, 7, 36, 255, 14, 7, 7, 7], 0⟩ j = rowOutput.get? j)) :=
  have h4 : ApplyLaplaceFilter rowInput rowOutput 3 4 = .ok ⟨[7, 7, 7, 36, 7, 7, 7, 7, 7], 0⟩ := by
    decide
  have h9 : ApplyLaplaceFilter rowInput rowOutput 3 9 =
      .ok ⟨[7, 7, 7, 36, 255, 14, 7, 7, 7], 0⟩ := by
    decide
  have h := bound_truncates_sweep rowInput rowOutput 3 4 9 (by decide) (by decide)
  have hseq := h.1
  ⟨h4, by simp only [h4, Except.bind] at hseq; exact hseq,
   h.2 ⟨[7, 7, 7, 36, 255, 14, 7, 7, 7], 0⟩ h9⟩

/-! Negative width -/

theorem cRem_neg (a b : Int) : cRem a (-b) = cRem a b := by
  unfold cRem
  rw [Int.tmod_neg]
  by_cases h : b = 0
  · simp [h]
  · have : -b ≠ 0 := by omega
    simp [h, this]

theorem skipTest_neg (ew i : Int) : skipTest (-ew) i = skipTest ew i := by
  unfold skipTest
  rw [cRem_neg, cRem_neg]

theorem laplace_neg (input : Buffer) (ew i : Int) :
    laplace input (-ew) i = laplace input ew i := by
  unfold laplace
  rw [sub_neg_eq_add, ← sub_eq_add_neg]
  omega

/-- With the stride negated the top and bottom reads swap; the value and the faults of
the stencil are the same. -/
theorem stencil_neg (input : Buffer) (ew i : Int) :
    stencil input (-ew) i = stencil input ew i := by
  by_cases hall : ∀ k ∈ stencilIndices ew i, input.inside k
  · have hall2 : ∀ k ∈ stencilIndices (-ew) i, input.inside k := by
      intro k hk
      apply hall
      simp only [stencilIndices, List.mem_cons, List.mem_singleton, List.not_mem_nil,
        or_false] at hk ⊢
      rcases hk with h | h | h | h | h
      · exact Or.inl h
      · exact Or.inr (Or.inl h)
      · exact Or.inr (Or.inr (Or.inl h))
      · exact Or.inr (Or.inr (Or.inr (Or.inr (by omega))))
      · exact Or.inr (Or.inr (Or.inr (Or.inl (by omega))))
    rw [stencil_eq_laplace input _ i hall, stencil_eq_laplace input _ i hall2, laplace_neg]
  · have hex : ∃ k ∈ stencilIndices ew i, ¬ input.inside k := by
      by_contra hno
      apply hall
      intro k hk
      by_contra hk2
      exact hno ⟨k, hk, hk2⟩
    obtain ⟨k, hk, hout⟩ := hex
    have hex2 : ∃ k ∈ stencilIndices (-ew) i, ¬ input.inside k := by
      refine ⟨k, ?_, hout⟩
      simp only [stencilIndices, List.mem_cons, List.mem_singleton, List.not_mem_nil,
        or_false] at hk ⊢
      rcases hk with h | h | h | h | h
      · exact Or.inl h
      · exact Or.inr (Or.inl h)
      · exact Or.inr (Or.inr (Or.inl h))
      · exact Or.inr (Or.inr (Or.inr (Or.inr (by omega))))
      · exact Or.inr (Or.inr (Or.inr (Or.inl (by omega))))
    rw [stencil_fault input _ i ⟨k, hk, hout⟩, stencil_fault input _ i hex2]

theorem loopBody_neg (input : Buffer) (ew : Int) (output : Buffer) (i : Int) :
    loopBody input (-ew) output i = loopBody input ew output i := by
  unfold loopBody
  rw [skipTest_neg, stencil_neg]

theorem forLoop_neg (input : Buffer) (ew : Int) :
    ∀ (n : Nat) (s : Int) (output : Buffer),
      forLoop input (-ew) n s output = forLoop input ew n s output := by
  intro n
  induction n with
  | zero => intro s output; rfl
  | succ n ih =>
    intro s output
    simp only [forLoop, loopBody_neg, ih]

/-- C18: a negative width behaves like its absolute value.  With `%` the truncated
remainder and `w ≥ 1`: at every `i ≥ 0` the two remainders of the skip test taken by
`-3w` are those taken by `3w`, the skip test gives the same answer, the loop body (whose
top and bottom reads swap) has the same effect, and the call with `width = -w` returns
exactly what the call with `width = w` returns, for every end and all buffers. -/
theorem negative_width_like_positive (input output : Buffer) (w end_ : Int) (hw : 1 ≤ w) :
    (∀ i, 0 ≤ i →
      Int.tmod i (extendedWidth (-w)) = i % (3 * w) ∧
      Int.tmod (i + 3) (extendedWidth (-w)) = (i + 3) % (3 * w) ∧
      Int.tmod i (extendedWidth w) = i % (3 * w) ∧
      Int.tmod (i + 3) (extendedWidth w) = (i + 3) % (3 * w) ∧
      skipTest (extendedWidth (-w)) i = skipTest (extendedWidth w) i ∧
      stencilIndices (extendedWidth (-w)) i = [i, i - 3, i + 3, i + 3 * w, i - 3 * w] ∧
      loopBody input (extendedWidth (-w)) output i =
        loopBody input (extendedWidth w) output i) ∧
    ApplyLaplaceFilter input output (-w) end_ = ApplyLaplaceFilter input output w end_ := by
  have hneg : extendedWidth (-w) = -extendedWidth w := by
    unfold extendedWidth
    ring
  have hpos : (0 : Int) ≤ 3 * w := by omega
  constructor
  · intro i h0
    refine ⟨?_, ?_, ?_, ?_, ?_, ?_, ?_⟩
    · rw [hneg, Int.tmod_neg, extendedWidth_eq]
      exact Int.tmod_eq_emod h0 hpos
    · rw [hneg, Int.tmod_neg, extendedWidth_eq]
      exact Int.tmod_eq_emod (by omega) hpos
    · rw [extendedWidth_eq]
      exact Int.tmod_eq_emod h0 hpos
    · rw [extendedWidth_eq]
      exact Int.tmod_eq_emod (by omega) hpos
    · rw [hneg, skipTest_neg]
    · rw [hneg, extendedWidth_eq]
      simp only [stencilIndices, sub_neg_eq_add, ← sub_eq_add_neg]
    · rw [hneg, loopBody_neg]
  · unfold ApplyLaplaceFilter
    rw [hneg, forLoop_neg]

/-- C18, on the sample row with `width = -3`. -/
theorem negative_width_like_positive_witness :
    ApplyLaplaceFilter rowInput rowOutput (-3) 9 = ApplyLaplaceFilter rowInput rowOutput 3 9 ∧
    ApplyLaplaceFilter rowInput rowOutput (-3) 9 = .ok ⟨[7, 7, 7, 36, 255, 14, 7, 7, 7], 0⟩ ∧
    skipTest (extendedWidth (-3)) 7 = skipTest (extendedWidth 3) 7 :=
  ⟨(negative_width_like_positive rowInput rowOutput 3 9 (by decide)).2,
   by decide,
   ((negative_width_like_positive rowInput rowOutput 3 9 (by decide)).1 7
      (by decide)).2.2.2.2.1⟩

/-! Counting the stores -/

end LaplaceFilter
